import Mathlib

/-!
Shallow embedding of the `Beyond-DSA` repository:

* `src/Multi-Tenant/Solution.py` — a per-tenant token-bucket rate limiter
  (`TokenBucket`, `MultiTenantRateLimiter`).
* `src/Idempotency Keys/Solution.py` — an idempotent processor
  (`InMemoryIdempotentStorage`, `IdempotentProcessor`) with a TTL cache,
  per-key single-flight locking, a metrics table and a background janitor.

Python `float` timestamps are modelled as `ℚ`, `int` counters as `ℕ`/`ℤ`,
action results as `ℤ` and raised errors as `String` (opaque values).
Python dictionaries are modelled as association lists over `String` keys
(sequential model) or as total functions (concurrent model).
-/

namespace BeyondDSA

/-! ### Association-list maps (Python `dict` with string keys) -/

def lookupKey {β : Type} : List (String × β) → String → Option β
  | [], _ => none
  | (k, v) :: rest, key => if k = key then some v else lookupKey rest key

def setKey {β : Type} : List (String × β) → String → β → List (String × β)
  | [], key, v => [(key, v)]
  | (k, w) :: rest, key, v =>
      if k = key then (k, v) :: rest else (k, w) :: setKey rest key v

/-- Increment a named counter, as `self._metrics[name] += 1` on a
`defaultdict(int)`. -/
def bumpCounter (m : String → ℕ) (name : String) : String → ℕ :=
  fun n => if n = name then m n + 1 else m n

/-! ### Token bucket (`src/Multi-Tenant/Solution.py`, class `TokenBucket`) -/

structure TokenBucket where
  capacity : ℤ
  refill_rate : ℚ
  current_tokens : ℚ
  last_checked : ℚ
  deriving DecidableEq

namespace TokenBucket

/-- `TokenBucket.__init__`: starts full, last checked now. -/
def init (capacity : ℤ) (refill_rate : ℚ) (now : ℚ) : TokenBucket :=
  { capacity := capacity, refill_rate := refill_rate,
    current_tokens := (capacity : ℚ), last_checked := now }

/-- `TokenBucket.allow_request`: lazily refill
(`current_tokens := min(capacity, current_tokens + elapsed * refill_rate)`),
then admit iff `floor(current_tokens) >= tokens`, deducting on admission. -/
def allow_request (b : TokenBucket) (tokens : ℤ) (now : ℚ) : Bool × TokenBucket :=
  let elapsed := now - b.last_checked
  let avail := min (b.capacity : ℚ) (b.current_tokens + elapsed * b.refill_rate)
  if tokens ≤ ⌊avail⌋ then
    (true, { b with current_tokens := avail - tokens, last_checked := now })
  else
    (false, { b with current_tokens := avail, last_checked := now })

end TokenBucket

/-! ### Multi-tenant limiter (`src/Multi-Tenant/Solution.py`,
class `MultiTenantRateLimiter`) -/

structure MultiTenantRateLimiter where
  clients : List (String × TokenBucket)
  deriving DecidableEq

/-- `MultiTenantRateLimiter.allow_request`: create the tenant bucket on first
sight (with `capacity` defaulting to `5` and `refill_rate` to `1.0`), then
delegate to the bucket's `allow_request`. -/
def MultiTenantRateLimiter.allow_request (rl : MultiTenantRateLimiter)
    (client_id : String) (tokens : ℤ) (capacity : Option ℤ)
    (refill_rate : Option ℚ) (now : ℚ) : Bool × MultiTenantRateLimiter :=
  let bucket :=
    match lookupKey rl.clients client_id with
    | some b => b
    | none => TokenBucket.init (capacity.getD 5) (refill_rate.getD 1) now
  let res := bucket.allow_request tokens now
  (res.1, ⟨setKey rl.clients client_id res.2⟩)

/-! ### Result store (`src/Idempotency Keys/Solution.py`,
class `InMemoryIdempotentStorage`) -/

/-- The `(timestamp, result, success)` tuple stored per key. -/
structure CacheEntry where
  timestamp : ℚ
  result : ℤ
  success : Bool
  deriving DecidableEq

/-- Freshness test used by both cache checks in `process`:
`is_success and (current_time - timestamp <= self.ttl_seconds)`. -/
def fresh_entry (e : CacheEntry) (now ttl : ℚ) : Bool :=
  e.success && decide (now - e.timestamp ≤ ttl)

structure InMemoryIdempotentStorage where
  results : List (String × CacheEntry)
  deriving DecidableEq

namespace InMemoryIdempotentStorage

/-- `InMemoryIdempotentStorage.get`. -/
def get (s : InMemoryIdempotentStorage) (key : String) : Option CacheEntry :=
  lookupKey s.results key

/-- `InMemoryIdempotentStorage.set_success`: overwrite with
`(time.time(), result, True)`; `now` is that `time.time()` call. -/
def set_success (s : InMemoryIdempotentStorage) (key : String) (result : ℤ)
    (now : ℚ) : InMemoryIdempotentStorage :=
  ⟨setKey s.results key ⟨now, result, true⟩⟩

/-- `InMemoryIdempotentStorage.cleanup_expired`: delete every entry with
`current_time - ts > ttl_seconds` (equivalently, keep the others). -/
def cleanup_expired (s : InMemoryIdempotentStorage) (current_time ttl_seconds : ℚ) :
    InMemoryIdempotentStorage :=
  ⟨s.results.filter fun kv => !(decide (current_time - kv.2.timestamp > ttl_seconds))⟩

end InMemoryIdempotentStorage

/-! ### Processor (`src/Idempotency Keys/Solution.py`,
class `IdempotentProcessor`), sequential (single-caller) model.

The per-key lock, coordination lock and in-flight set only matter under
concurrency; the interleaved model below covers them.  Here a single call
runs to completion, so `process` is a function of the processor state, the
key, the action outcome and the two wall-clock readings it performs
(`current_time` at entry, and the `time.time()` inside `set_success`). -/

structure IdempotentProcessor where
  ttl_seconds : ℚ
  storage : InMemoryIdempotentStorage
  metrics : String → ℕ
  shutdown_set : Bool
  cleanup_joined : Bool

namespace IdempotentProcessor

/-- `IdempotentProcessor._record_metric`. -/
def record_metric (p : IdempotentProcessor) (name : String) : IdempotentProcessor :=
  { p with metrics := bumpCounter p.metrics name }

/-- `IdempotentProcessor.get_metrics`: `dict(self._metrics)`, a copy of the
counter table at call time. -/
def get_metrics (p : IdempotentProcessor) : String → ℕ :=
  fun name => p.metrics name

/-- `IdempotentProcessor.shutdown`: a no-op once `_shutdown_event` is set;
otherwise set the event and join the cleanup thread. -/
def shutdown (p : IdempotentProcessor) : IdempotentProcessor :=
  if p.shutdown_set then p
  else { p with shutdown_set := true, cleanup_joined := true }

end IdempotentProcessor

/-- Outcome of one `process` call: the returned-or-raised value, the updated
processor, and how many times the action was invoked during the call. -/
structure ProcessResult where
  output : Except String ℤ
  proc : IdempotentProcessor
  invocations : ℕ

namespace IdempotentProcessor

/-- Lines 110–113 of `process`: record `cache_miss`, invoke the action; on
success write the result to the store, on error re-raise and write nothing. -/
def run_action (p : IdempotentProcessor) (key : String)
    (action : Except String ℤ) (write_time : ℚ) : ProcessResult :=
  let p1 := p.record_metric "cache_miss"
  match action with
  | .ok r =>
      { output := .ok r,
        proc := { p1 with storage := p1.storage.set_success key r write_time },
        invocations := 1 }
  | .error err =>
      { output := .error err, proc := p1, invocations := 1 }

/-- The body under the per-key lock: double-check the store (with the
`current_time` captured at entry), return a fresh success, else execute. -/
def process_locked (p : IdempotentProcessor) (key : String)
    (action : Except String ℤ) (current_time write_time : ℚ) : ProcessResult :=
  match p.storage.get key with
  | some e =>
      if fresh_entry e current_time p.ttl_seconds then
        { output := .ok e.result, proc := p, invocations := 0 }
      else p.run_action key action write_time
  | none => p.run_action key action write_time

/-- `IdempotentProcessor.process`, single-caller: fast-path read, then the
locked section. -/
def process (p : IdempotentProcessor) (idempotency_key : String)
    (action : Except String ℤ) (current_time write_time : ℚ) : ProcessResult :=
  match p.storage.get idempotency_key with
  | some e =>
      if fresh_entry e current_time p.ttl_seconds then
        { output := .ok e.result, proc := p.record_metric "cache_hit",
          invocations := 0 }
      else p.process_locked idempotency_key action current_time write_time
  | none => p.process_locked idempotency_key action current_time write_time

end IdempotentProcessor

/-- Bool view of "the store holds a fresh success for this key at this time". -/
def fresh_lookup (o : Option CacheEntry) (now ttl : ℚ) : Bool :=
  match o with
  | some e => fresh_entry e now ttl
  | none => false

/-- The state-changing operations of `IdempotentProcessor`, used to state
metric monotonicity across the whole surface. -/
inductive ProcessorOp
  | processOp (key : String) (action : Except String ℤ) (current_time write_time : ℚ)
  | recordOp (name : String)
  | snapshotOp
  | cleanupOp (now : ℚ)
  | shutdownOp

/-- Apply one operation to the processor state.  `snapshotOp` is
`get_metrics` (reads only); `cleanupOp` is one janitor sweep. -/
def IdempotentProcessor.applyOp (p : IdempotentProcessor) :
    ProcessorOp → IdempotentProcessor
  | .processOp k a t tw => (p.process k a t tw).proc
  | .recordOp name => p.record_metric name
  | .snapshotOp => p
  | .cleanupOp now => { p with storage := p.storage.cleanup_expired now p.ttl_seconds }
  | .shutdownOp => p.shutdown

/-! ### Janitor (`IdempotentProcessor._run_cleanup_loop`).

A sweep is modelled as a fallible storage call (the pluggable backend's
`cleanup_expired` may raise).  One loop iteration runs the sweep inside
`try/except`: an error is caught (and logged), leaving the storage as it
was.  The loop then proceeds with the remaining iterations. -/

def cleanup_iteration
    (sweep : InMemoryIdempotentStorage → Except String InMemoryIdempotentStorage)
    (s : InMemoryIdempotentStorage) : InMemoryIdempotentStorage :=
  match sweep s with
  | .ok s2 => s2
  | .error _ => s

def run_cleanup_loop :
    List (InMemoryIdempotentStorage → Except String InMemoryIdempotentStorage) →
    InMemoryIdempotentStorage → InMemoryIdempotentStorage
  | [], s => s
  | f :: rest, s => run_cleanup_loop rest (cleanup_iteration f s)

/-! ### Concurrent model of `IdempotentProcessor.process`.

`process` is decomposed into its atomic sections, one transition label per
section, so that calls by several threads interleave arbitrarily:

* `fastPath`  — `current_time = time.time()` plus the unlocked store read
  (lines 79–86); on a fresh success return it, else fall through.  The
  captured `current_time` is the thread's entry time `t0`.
* `coordinate` — the `_coord_lock` block (lines 88–97): create/look up the
  per-key lock, record `concurrent_wait` if the key is in flight, and mark
  it in flight.
* `acquire`   — `key_lock.acquire()`; enabled only while no thread holds
  the per-key lock.
* `doubleCheck` — the second store read (lines 104–108).  As in the source,
  freshness is judged with the thread's `current_time` captured at entry
  (`t0`), not with the clock at this instant.
* `invoke`    — `action_callable(...)` (line 111).  The action of the
  single-flight scenario increments the per-key shared counter and returns
  its new value; it always succeeds.
* `storeWrite` — `storage.set_success` (line 112), timestamped now.
* `release`   — the `finally` block (lines 118–122): release the lock and
  pop the key from the in-flight set.
* `tick`      — wall-clock time passes (threads take no time themselves).
* `cleanup`   — one janitor sweep, `storage.cleanup_expired(time.time(), ttl)`.

Keys are `ℕ`; the store, lock registry, in-flight set and per-key action
counters are total functions from keys. -/

/-- Concurrent-model copy of the stored `(timestamp, result, success)`
tuple, over the integer tick clock of the interleaved model. -/
structure EntryC where
  timestamp : ℤ
  result : ℤ
  success : Bool
  deriving DecidableEq

/-- The freshness test of `process`, on the integer tick clock. -/
def fresh_entryC (e : EntryC) (now ttl : ℤ) : Bool :=
  e.success && decide (now - e.timestamp ≤ ttl)

/-- Program point of one caller inside `process`, with the data it holds. -/
inductive Phase
  | ready
  | coordinating (t0 : ℤ)
  | acquiring (t0 : ℤ)
  | checking (t0 : ℤ)
  | invoking (t0 : ℤ)
  | storing (r : ℤ)
  | releasing (r : ℤ)
  | done (r : ℤ)
  deriving DecidableEq

/-- One caller: its idempotency key and its current program point. -/
structure Caller where
  key : ℕ
  phase : Phase
  deriving DecidableEq

/-- Global state: wall clock, the `n` caller threads, and the processor's
shared structures. -/
structure SysState (n : ℕ) where
  clock : ℤ
  threads : Fin n → Caller
  store : ℕ → Option EntryC
  lockHolder : ℕ → Option (Fin n)
  inFlight : ℕ → Bool
  counter : ℕ → ℕ
  metrics : String → ℕ

inductive Label (n : ℕ)
  | tick
  | cleanup
  | fastPath (t : Fin n)
  | coordinate (t : Fin n)
  | acquire (t : Fin n)
  | doubleCheck (t : Fin n)
  | invoke (t : Fin n)
  | storeWrite (t : Fin n)
  | release (t : Fin n)
  deriving DecidableEq

def setThread {n : ℕ} (f : Fin n → Caller) (t : Fin n) (ph : Phase) :
    Fin n → Caller :=
  fun u => if u = t then ⟨(f t).key, ph⟩ else f u

def setAt {α : Type} (f : ℕ → α) (k : ℕ) (a : α) : ℕ → α :=
  fun k2 => if k2 = k then a else f k2

/-- One atomic step of the system; `none` when the label is not enabled. -/
def step {n : ℕ} (ttl : ℤ) (s : SysState n) : Label n → Option (SysState n)
  | .tick => some { s with clock := s.clock + 1 }
  | .cleanup =>
      some { s with store := fun k =>
        match s.store k with
        | some e => if s.clock - e.timestamp > ttl then none else some e
        | none => none }
  | .fastPath t =>
      match (s.threads t).phase with
      | .ready =>
          match s.store (s.threads t).key with
          | some e =>
              if fresh_entryC e s.clock ttl then
                some { s with threads := setThread s.threads t (.done e.result),
                              metrics := bumpCounter s.metrics "cache_hit" }
              else
                some { s with threads := setThread s.threads t (.coordinating s.clock) }
          | none =>
              some { s with threads := setThread s.threads t (.coordinating s.clock) }
      | _ => none
  | .coordinate t =>
      match (s.threads t).phase with
      | .coordinating t0 =>
          some { s with threads := setThread s.threads t (.acquiring t0),
                        inFlight := setAt s.inFlight (s.threads t).key true,
                        metrics := if s.inFlight (s.threads t).key then
                            bumpCounter s.metrics "concurrent_wait"
                          else s.metrics }
      | _ => none
  | .acquire t =>
      match (s.threads t).phase with
      | .acquiring t0 =>
          match s.lockHolder (s.threads t).key with
          | none =>
              some { s with threads := setThread s.threads t (.checking t0),
                            lockHolder := setAt s.lockHolder (s.threads t).key (some t) }
          | some _ => none
      | _ => none
  | .doubleCheck t =>
      match (s.threads t).phase with
      | .checking t0 =>
          match s.store (s.threads t).key with
          | some e =>
              if fresh_entryC e t0 ttl then
                some { s with threads := setThread s.threads t (.releasing e.result) }
              else
                some { s with threads := setThread s.threads t (.invoking t0),
                              metrics := bumpCounter s.metrics "cache_miss" }
          | none =>
              some { s with threads := setThread s.threads t (.invoking t0),
                            metrics := bumpCounter s.metrics "cache_miss" }
      | _ => none
  | .invoke t =>
      match (s.threads t).phase with
      | .invoking _ =>
          some { s with
            counter := setAt s.counter (s.threads t).key
                (s.counter (s.threads t).key + 1),
            threads := setThread s.threads t
                (.storing ((s.counter (s.threads t).key : ℤ) + 1)) }
      | _ => none
  | .storeWrite t =>
      match (s.threads t).phase with
      | .storing r =>
          some { s with
            store := setAt s.store (s.threads t).key (some ⟨s.clock, r, true⟩),
            threads := setThread s.threads t (.releasing r) }
      | _ => none
  | .release t =>
      match (s.threads t).phase with
      | .releasing r =>
          some { s with
            lockHolder := setAt s.lockHolder (s.threads t).key none,
            inFlight := setAt s.inFlight (s.threads t).key false,
            threads := setThread s.threads t (.done r) }
      | _ => none

/-- Run a whole schedule; `none` if some label was not enabled. -/
def run {n : ℕ} (ttl : ℤ) : SysState n → List (Label n) → Option (SysState n)
  | s, [] => some s
  | s, l :: ls =>
      match step ttl s l with
      | some s2 => run ttl s2 ls
      | none => none

/-- All states visited by a schedule (stopping at a disabled label). -/
def statesAlong {n : ℕ} (ttl : ℤ) : SysState n → List (Label n) → List (SysState n)
  | s, [] => [s]
  | s, l :: ls =>
      s :: (match step ttl s l with
            | some s2 => statesAlong ttl s2 ls
            | none => [])

/-- Phases that hold the per-key lock (steps 4–6 of the protocol). -/
def holding : Phase → Prop
  | .checking _ => True
  | .invoking _ => True
  | .storing _ => True
  | .releasing _ => True
  | _ => False

/-- The `current_time` a thread captured at entry, when it still carries one. -/
def entryTimeOf : Phase → Option ℤ
  | .coordinating t0 => some t0
  | .acquiring t0 => some t0
  | .checking t0 => some t0
  | .invoking t0 => some t0
  | _ => none

/-- Every caller for key `k` has entered `process` (passed its fast path). -/
def Started {n : ℕ} (k : ℕ) (s : SysState n) : Prop :=
  ∀ t, (s.threads t).key = k → (s.threads t).phase ≠ .ready

/-- The single-flight scenario side conditions at one state: callers for `k`
overlap (all entered before the first write exists), and the whole episode
fits inside one TTL window starting at `c0`. -/
def GoodState {n : ℕ} (ttl : ℤ) (k : ℕ) (c0 : ℤ) (s : SysState n) : Prop :=
  (s.store k ≠ none → Started k s) ∧ s.clock ≤ c0 + ttl

/-- Initial state of the scenario: a clean key `k`, all callers at `ready`
holding key `k`, clock at `c0`. -/
def InitFor {n : ℕ} (k : ℕ) (c0 : ℤ) (s : SysState n) : Prop :=
  s.clock = c0 ∧ (∀ t, (s.threads t).key = k ∧ (s.threads t).phase = .ready) ∧
  s.store k = none ∧ s.lockHolder k = none ∧ s.counter k = 0

/-- Inductive invariant of the single-flight scenario for key `k`. -/
structure Inv {n : ℕ} (ttl : ℤ) (k : ℕ) (c0 : ℤ) (s : SysState n) : Prop where
  keys : ∀ t, (s.threads t).key = k
  clock0 : c0 ≤ s.clock
  lockIff : ∀ t, holding (s.threads t).phase ↔ s.lockHolder k = some t
  entry_le_clock : ∀ t t0, entryTimeOf (s.threads t).phase = some t0 → t0 ≤ s.clock
  store_fresh : ∀ e, s.store k = some e →
    e.success = true ∧ e.result = 1 ∧ s.counter k = 1 ∧ c0 ≤ e.timestamp ∧
    (∀ t, (∀ t0, (s.threads t).phase ≠ .invoking t0) ∧
          (∀ r, (s.threads t).phase ≠ .storing r)) ∧
    (∀ t t0, entryTimeOf (s.threads t).phase = some t0 → t0 ≤ e.timestamp)
  store_virgin : s.store k = none →
    (∀ t r, (s.threads t).phase ≠ .releasing r ∧ (s.threads t).phase ≠ .done r) ∧
    ((∀ t r, (s.threads t).phase ≠ .storing r) → s.counter k = 0)
  storing_one : ∀ t r, (s.threads t).phase = .storing r →
    r = 1 ∧ s.counter k = 1 ∧ s.store k = none
  finish_one : ∀ t r,
    ((s.threads t).phase = .releasing r ∨ (s.threads t).phase = .done r) →
    r = 1 ∧ s.store k ≠ none

instance {n : ℕ} (k : ℕ) (s : SysState n) : Decidable (Started k s) := by
  unfold Started; exact inferInstance

instance {n : ℕ} (ttl : ℤ) (k : ℕ) (c0 : ℤ) (s : SysState n) :
    Decidable (GoodState ttl k c0 s) := by
  unfold GoodState; exact inferInstance

instance {n : ℕ} (k : ℕ) (c0 : ℤ) (s : SysState n) : Decidable (InitFor k c0 s) := by
  unfold InitFor; exact inferInstance

/-! ### Concrete scenarios used by the witnesses and the counterexample -/

/-- Two callers for key `0`, clean store, clock `0`. -/
def exS0 : SysState 2 :=
  ⟨0, fun _ => ⟨0, .ready⟩, fun _ => none, fun _ => none,
   fun _ => false, fun _ => 0, fun _ => 0⟩

/-- A complete single-flight run: caller `0` executes, caller `1` overlaps
and is served by the double-check. -/
def exTrace : List (Label 2) :=
  [.fastPath 0, .fastPath 1, .coordinate 0, .acquire 0, .doubleCheck 0,
   .invoke 0, .storeWrite 0, .release 0, .coordinate 1, .acquire 1,
   .doubleCheck 1, .release 1]

def exSf : SysState 2 := (run 0 exS0 exTrace).getD exS0

/-- Caller `0` executes and writes at clock `0`; caller `1` entered at clock
`0` and reaches its double-check only at clock `21`. -/
def exC4Trace : List (Label 2) :=
  [.fastPath 0, .fastPath 1, .coordinate 0, .acquire 0, .doubleCheck 0,
   .invoke 0, .storeWrite 0, .release 0, .coordinate 1, .acquire 1] ++
  List.replicate 21 .tick

def exC4Pre : SysState 2 := (run 10 exS0 exC4Trace).getD exS0

/-- One caller at `ready` in front of a store that has a fresh success. -/
def exHitS : SysState 1 :=
  ⟨3, fun _ => ⟨0, .ready⟩, fun k => if k = 0 then some ⟨1, 7, true⟩ else none,
   fun _ => none, fun _ => false, fun _ => 0, fun _ => 0⟩

def exHitS2 : SysState 1 := (step 10 exHitS (.fastPath 0)).getD exHitS

/-- One caller holding the lock at its double-check, entry time `2`. -/
def exChkS : SysState 1 :=
  ⟨99, fun _ => ⟨0, .checking 2⟩, fun k => if k = 0 then some ⟨1, 5, true⟩ else none,
   fun _ => some 0, fun _ => true, fun _ => 0, fun _ => 0⟩

def exChkS2 : SysState 1 := (step 10 exChkS (.doubleCheck 0)).getD exChkS

/-! ## Theorems -/

/-! ### Association-list lemmas -/

theorem lookupKey_setKey_self {β : Type} (l : List (String × β)) (k : String) (v : β) :
    lookupKey (setKey l k v) k = some v := by
  induction l with
  | nil => simp [setKey, lookupKey]
  | cons hd tl ih =>
      obtain ⟨k1, w⟩ := hd
      by_cases h : k1 = k
      · simp [setKey, h, lookupKey]
      · simp [setKey, h, lookupKey, ih]

theorem lookupKey_eq_none_of_not_mem {β : Type} (l : List (String × β)) (k : String)
    (h : k ∉ l.map Prod.fst) : lookupKey l k = none := by
  induction l with
  | nil => rfl
  | cons hd tl ih =>
      obtain ⟨k1, w⟩ := hd
      simp only [List.map_cons, List.mem_cons] at h
      push_neg at h
      have h1 : k1 ≠ k := fun e => h.1 e.symm
      simp [lookupKey, h1, ih h.2]

theorem lookupKey_filter_none {β : Type} (p : String × β → Bool)
    (l : List (String × β)) (k : String) (h : lookupKey l k = none) :
    lookupKey (l.filter p) k = none := by
  induction l with
  | nil => rfl
  | cons hd tl ih =>
      obtain ⟨k1, w⟩ := hd
      by_cases hk : k1 = k
      · simp [lookupKey, hk] at h
      · simp only [lookupKey, if_neg hk] at h
        by_cases hp : p (k1, w)
        · simp [List.filter_cons, hp, lookupKey, hk, ih h]
        · simp [List.filter_cons, hp, ih h]

theorem lookupKey_filter {β : Type} (p : String × β → Bool)
    (l : List (String × β)) (k : String) (hnd : (l.map Prod.fst).Nodup) :
    lookupKey (l.filter p) k =
      match lookupKey l k with
      | some v => if p (k, v) then some v else none
      | none => none := by
  induction l with
  | nil => rfl
  | cons hd tl ih =>
      obtain ⟨k1, w⟩ := hd
      simp only [List.map_cons, List.nodup_cons] at hnd
      by_cases hk : k1 = k
      · subst hk
        by_cases hq : p (k1, w)
        · simp [List.filter_cons, hq, lookupKey]
        · have hn : lookupKey tl k1 = none :=
            lookupKey_eq_none_of_not_mem _ _ hnd.1
          simp [List.filter_cons, hq, lookupKey,
                lookupKey_filter_none p tl k1 hn]
      · by_cases hq : p (k1, w)
        · simp [List.filter_cons, hq, lookupKey, hk, ih hnd.2]
        · simp [List.filter_cons, hq, lookupKey, hk, ih hnd.2]

/-! ### C5 — `cleanup_expired` removes exactly the expired entries -/

/-- C5: for every store state with distinct keys, `cleanup_expired(now, ttl)`
removes exactly the entries whose `now − timestamp` exceeds `ttl`: afterwards
a key maps to an entry iff it mapped to that same, unchanged entry before and
`now − timestamp ≤ ttl`. -/
theorem cleanup_expired_spec (s : InMemoryIdempotentStorage) (now ttl : ℚ)
    (k : String) (e : CacheEntry) (hnd : (s.results.map Prod.fst).Nodup) :
    (s.cleanup_expired now ttl).get k = some e ↔
      s.get k = some e ∧ now - e.timestamp ≤ ttl := by
  unfold InMemoryIdempotentStorage.cleanup_expired InMemoryIdempotentStorage.get
  rw [lookupKey_filter _ _ _ hnd]
  cases hg : lookupKey s.results k with
  | none => simp
  | some v =>
      by_cases hv : now - v.timestamp ≤ ttl
      · simp [hv, not_lt.mpr hv]
        rintro rfl
        linarith
      · simp [hv, not_le.mp hv]
        rintro rfl
        linarith [not_le.mp hv]

theorem cleanup_expired_spec_witness :
    (InMemoryIdempotentStorage.cleanup_expired ⟨[("a", ⟨0, 1, true⟩), ("b", ⟨-20, 2, true⟩)]⟩ 5 10).get "a"
      = some ⟨0, 1, true⟩ := by
  exact (cleanup_expired_spec ⟨[("a", ⟨0, 1, true⟩), ("b", ⟨-20, 2, true⟩)]⟩ 5 10 "a" ⟨0, 1, true⟩
    (by simp)).mpr ⟨rfl, by norm_num⟩

/-! ### C6 — token-bucket admission -/

/-- C6: `allow_request` first refills to
`min(capacity, current + elapsed × refill_rate)`, then admits and deducts
`tokens` exactly when the floor of the refilled amount is at least `tokens`;
on refusal nothing is deducted. -/
theorem allow_request_spec (b : TokenBucket) (tokens : ℤ) (now : ℚ)
    (ht : 0 ≤ tokens) (he : 0 ≤ now - b.last_checked) :
    ((b.allow_request tokens now).1 = true ↔
      tokens ≤ ⌊min (b.capacity : ℚ)
        (b.current_tokens + (now - b.last_checked) * b.refill_rate)⌋) ∧
    ((b.allow_request tokens now).1 = true →
      (b.allow_request tokens now).2.current_tokens =
        min (b.capacity : ℚ)
          (b.current_tokens + (now - b.last_checked) * b.refill_rate) - tokens) ∧
    ((b.allow_request tokens now).1 = false →
      (b.allow_request tokens now).2.current_tokens =
        min (b.capacity : ℚ)
          (b.current_tokens + (now - b.last_checked) * b.refill_rate)) := by
  unfold TokenBucket.allow_request
  dsimp only
  split_ifs with h <;> simp [h]

theorem allow_request_spec_witness :
    0 ≤ (1 : ℤ) ∧ 0 ≤ (0 : ℚ) - (TokenBucket.mk 5 1 5 0).last_checked ∧
    ((TokenBucket.mk 5 1 5 0).allow_request 1 0).1 = true ∧
    ((TokenBucket.mk 5 1 5 0).allow_request 1 0).2.current_tokens = 4 := by
  have h := allow_request_spec (TokenBucket.mk 5 1 5 0) 1 0 (by norm_num) (by norm_num)
  refine ⟨by norm_num, by norm_num, ?_, ?_⟩
  · exact h.1.mpr (by norm_num)
  · refine (h.2.1 (h.1.mpr (by norm_num))).trans (by norm_num)

/-! ### C7 — janitor sweep failures are caught inside the loop body -/

/-- C7: if a sweep raises, the error is caught inside the loop body: the
iteration leaves the storage unchanged, the error does not propagate out of
the loop, and the loop proceeds with the remaining iterations. -/
theorem cleanup_loop_catches
    (f : InMemoryIdempotentStorage → Except String InMemoryIdempotentStorage)
    (s : InMemoryIdempotentStorage) (e : String)
    (rest : List (InMemoryIdempotentStorage → Except String InMemoryIdempotentStorage))
    (h : f s = .error e) :
    cleanup_iteration f s = s ∧
    run_cleanup_loop (f :: rest) s = run_cleanup_loop rest s := by
  have hi : cleanup_iteration f s = s := by
    unfold cleanup_iteration
    rw [h]
  exact ⟨hi, by rw [run_cleanup_loop, hi]⟩

theorem cleanup_loop_catches_witness :
    cleanup_iteration (fun _ => .error "disk gone") ⟨[("a", ⟨0, 1, true⟩)]⟩
      = ⟨[("a", ⟨0, 1, true⟩)]⟩ ∧
    run_cleanup_loop [fun _ => .error "disk gone"] ⟨[("a", ⟨0, 1, true⟩)]⟩
      = run_cleanup_loop [] ⟨[("a", ⟨0, 1, true⟩)]⟩ :=
  cleanup_loop_catches (fun _ => .error "disk gone") ⟨[("a", ⟨0, 1, true⟩)]⟩
    "disk gone" [] rfl

/-! ### C8 — `shutdown` is idempotent -/

/-- C8: a second `shutdown` is a no-op: `shutdown ∘ shutdown` leaves the
processor state (shutdown event, cleanup thread) exactly as one `shutdown`. -/
theorem shutdown_idempotent (p : IdempotentProcessor) :
    p.shutdown.shutdown = p.shutdown := by
  unfold IdempotentProcessor.shutdown
  cases h : p.shutdown_set <;> simp [h]

/-! ### C9 — metric counters only ever grow; snapshots are copies -/

theorem bumpCounter_le (m : String → ℕ) (name n : String) :
    m n ≤ bumpCounter m name n := by
  unfold bumpCounter
  split <;> omega

theorem process_metrics_le (p : IdempotentProcessor) (k : String)
    (a : Except String ℤ) (t tw : ℚ) (name : String) :
    p.metrics name ≤ (p.process k a t tw).proc.metrics name := by
  unfold IdempotentProcessor.process IdempotentProcessor.process_locked
    IdempotentProcessor.run_action IdempotentProcessor.record_metric
  cases hg : p.storage.get k <;> dsimp only
  · cases a <;> exact bumpCounter_le _ _ _
  · split_ifs with h1
    · exact bumpCounter_le _ _ _
    · cases a <;> exact bumpCounter_le _ _ _

theorem applyOp_metrics_le (p : IdempotentProcessor) (op : ProcessorOp)
    (name : String) : p.metrics name ≤ (p.applyOp op).metrics name := by
  cases op with
  | processOp k a t tw => exact process_metrics_le p k a t tw name
  | recordOp n => exact bumpCounter_le _ _ _
  | snapshotOp => exact le_refl _
  | cleanupOp now => exact le_refl _
  | shutdownOp =>
      show p.metrics name ≤ p.shutdown.metrics name
      unfold IdempotentProcessor.shutdown
      split <;> exact le_refl _

/-- C9: `get_metrics` returns a copy of the counter table at call time, and
every counter is monotonically non-decreasing across any sequence of
processor operations (process calls, metric increments, snapshots, janitor
sweeps, shutdowns), so a returned snapshot is never changed by later
`_record_metric` increments. -/
theorem metrics_monotone (p : IdempotentProcessor) (ops : List ProcessorOp)
    (name : String) :
    p.get_metrics name = p.metrics name ∧
    p.get_metrics name ≤ (ops.foldl IdempotentProcessor.applyOp p).metrics name := by
  refine ⟨rfl, ?_⟩
  show p.metrics name ≤ _
  induction ops generalizing p with
  | nil => exact le_refl _
  | cons op ops ih =>
      exact le_trans (applyOp_metrics_le p op name) (ih (p.applyOp op))

/-! ### C2 — action errors are re-raised verbatim and never cached -/

theorem process_stale (p : IdempotentProcessor) (k : String)
    (a : Except String ℤ) (t tw : ℚ)
    (h : fresh_lookup (p.storage.get k) t p.ttl_seconds = false) :
    p.process k a t tw = p.run_action k a tw := by
  cases hg : p.storage.get k with
  | none =>
      unfold IdempotentProcessor.process IdempotentProcessor.process_locked
      rw [hg]
  | some e =>
      have hf : fresh_entry e t p.ttl_seconds = false := by
        rw [hg] at h
        exact h
      unfold IdempotentProcessor.process IdempotentProcessor.process_locked
      rw [hg]
      simp [hf]

/-- C2: when no fresh success is cached for the key (in particular whenever
the action actually runs, e.g. because it has always failed for this key),
`process` invokes the action once, re-raises its error unchanged, leaves the
store exactly as it was, and therefore every subsequent call with that key
re-invokes the action. -/
theorem process_propagates_action_error (p : IdempotentProcessor) (k : String)
    (err : String) (t tw : ℚ)
    (h : fresh_lookup (p.storage.get k) t p.ttl_seconds = false) :
    (p.process k (.error err) t tw).output = .error err ∧
    (p.process k (.error err) t tw).proc.storage = p.storage ∧
    (p.process k (.error err) t tw).proc.ttl_seconds = p.ttl_seconds ∧
    (p.process k (.error err) t tw).invocations = 1 ∧
    (∀ t2 tw2 err2, fresh_lookup (p.storage.get k) t2 p.ttl_seconds = false →
      ((p.process k (.error err) t tw).proc.process k (.error err2) t2 tw2).invocations = 1) := by
  rw [process_stale p k (.error err) t tw h]
  refine ⟨rfl, rfl, rfl, rfl, ?_⟩
  intro t2 tw2 err2 h2
  have h2b : fresh_lookup
      (((p.run_action k (.error err) tw).proc).storage.get k) t2
      ((p.run_action k (.error err) tw).proc).ttl_seconds = false := h2
  rw [process_stale _ k (.error err2) t2 tw2 h2b]
  rfl

theorem process_propagates_action_error_witness :
    ((IdempotentProcessor.mk 10 ⟨[]⟩ (fun _ => 0) false false).process "pay_42"
        (.error "declined") 0 0).output = .error "declined" ∧
    ((IdempotentProcessor.mk 10 ⟨[]⟩ (fun _ => 0) false false).process "pay_42"
        (.error "declined") 0 0).proc.storage = (⟨[]⟩ : InMemoryIdempotentStorage) ∧
    ((IdempotentProcessor.mk 10 ⟨[]⟩ (fun _ => 0) false false).process "pay_42"
        (.error "declined") 0 0).invocations = 1 := by
  have h := process_propagates_action_error
    (IdempotentProcessor.mk 10 ⟨[]⟩ (fun _ => 0) false false) "pay_42" "declined" 0 0 rfl
  exact ⟨h.1, h.2.1, h.2.2.2.1⟩

/-! ### C3 — TTL reuse across sequential calls -/

/-- C3: starting without a fresh cached success, a first call executes the
action and returns its result; a second call whose `current_time` is within
`ttl_seconds` of the written timestamp does not invoke the action and
returns the same result; a call made after `ttl_seconds` has elapsed since
the cached timestamp invokes the action again. -/
theorem process_ttl_reuse (p : IdempotentProcessor) (k : String) (v : ℤ)
    (t1 tw1 t2 tw2 t3 tw3 : ℚ) (act2 act3 : Except String ℤ)
    (h1 : fresh_lookup (p.storage.get k) t1 p.ttl_seconds = false)
    (h2 : t2 - tw1 ≤ p.ttl_seconds)
    (h3 : ¬ t3 - tw1 ≤ p.ttl_seconds) :
    (p.process k (.ok v) t1 tw1).invocations = 1 ∧
    (p.process k (.ok v) t1 tw1).output = .ok v ∧
    ((p.process k (.ok v) t1 tw1).proc.process k act2 t2 tw2).invocations = 0 ∧
    ((p.process k (.ok v) t1 tw1).proc.process k act2 t2 tw2).output = .ok v ∧
    ((p.process k (.ok v) t1 tw1).proc.process k act3 t3 tw3).invocations = 1 := by
  rw [process_stale p k (.ok v) t1 tw1 h1]
  refine ⟨rfl, rfl, ?_⟩
  have hget : ((p.run_action k (.ok v) tw1).proc).storage.get k = some ⟨tw1, v, true⟩ := by
    unfold IdempotentProcessor.run_action IdempotentProcessor.record_metric
      InMemoryIdempotentStorage.set_success InMemoryIdempotentStorage.get
    dsimp only
    exact lookupKey_setKey_self _ _ _
  have httl : ((p.run_action k (.ok v) tw1).proc).ttl_seconds = p.ttl_seconds := rfl
  constructor
  · unfold IdempotentProcessor.process
    rw [hget, httl]
    have hf : fresh_entry ⟨tw1, v, true⟩ t2 p.ttl_seconds = true := by
      simp [fresh_entry, h2]
    simp [hf]
  constructor
  · unfold IdempotentProcessor.process
    rw [hget, httl]
    have hf : fresh_entry ⟨tw1, v, true⟩ t2 p.ttl_seconds = true := by
      simp [fresh_entry, h2]
    simp [hf]
  · have hf : fresh_lookup (((p.run_action k (.ok v) tw1).proc).storage.get k) t3
        ((p.run_action k (.ok v) tw1).proc).ttl_seconds = false := by
      rw [hget, httl]
      simp [fresh_lookup, fresh_entry, h3]
    rw [process_stale _ k act3 t3 tw3 hf]
    cases act3 <;> rfl

theorem process_ttl_reuse_witness :
    ((IdempotentProcessor.mk 10 ⟨[]⟩ (fun _ => 0) false false).process "pay_42"
        (.ok 7) 0 0).invocations = 1 ∧
    (((IdempotentProcessor.mk 10 ⟨[]⟩ (fun _ => 0) false false).process "pay_42"
        (.ok 7) 0 0).proc.process "pay_42" (.ok 8) 5 5).invocations = 0 ∧
    (((IdempotentProcessor.mk 10 ⟨[]⟩ (fun _ => 0) false false).process "pay_42"
        (.ok 7) 0 0).proc.process "pay_42" (.ok 8) 5 5).output = .ok 7 ∧
    (((IdempotentProcessor.mk 10 ⟨[]⟩ (fun _ => 0) false false).process "pay_42"
        (.ok 7) 0 0).proc.process "pay_42" (.ok 9) 20 20).invocations = 1 := by
  have h := process_ttl_reuse (IdempotentProcessor.mk 10 ⟨[]⟩ (fun _ => 0) false false)
    "pay_42" 7 0 0 5 5 20 20 (.ok 8) (.ok 9) rfl (by norm_num) (by norm_num)
  exact ⟨h.1, h.2.2.1, h.2.2.2.1, h.2.2.2.2⟩

/-! ### C10 — bucket parameters are fixed at first sight of a client -/

/-- C10: only the first `MultiTenantRateLimiter.allow_request` call for a
client uses the `capacity`/`refill_rate` arguments (defaulting to `5` and
`1.0`); once the client's bucket exists those arguments are ignored and the
outcome is exactly the existing bucket's `allow_request` on the requested
token count. -/
theorem allow_request_first_call_params (rl : MultiTenantRateLimiter)
    (cid : String) (tk : ℤ) (cap cap2 : Option ℤ) (rr rr2 : Option ℚ) (now : ℚ) :
    (∀ b, lookupKey rl.clients cid = some b →
      rl.allow_request cid tk cap rr now = rl.allow_request cid tk cap2 rr2 now ∧
      rl.allow_request cid tk cap rr now =
        ((b.allow_request tk now).1,
         ⟨setKey rl.clients cid (b.allow_request tk now).2⟩)) ∧
    (lookupKey rl.clients cid = none →
      rl.allow_request cid tk cap rr now =
        (((TokenBucket.init (cap.getD 5) (rr.getD 1) now).allow_request tk now).1,
         ⟨setKey rl.clients cid
           ((TokenBucket.init (cap.getD 5) (rr.getD 1) now).allow_request tk now).2⟩)) := by
  constructor
  · intro b hb
    unfold MultiTenantRateLimiter.allow_request
    rw [hb]
    exact ⟨rfl, rfl⟩
  · intro hb
    unfold MultiTenantRateLimiter.allow_request
    rw [hb]

theorem allow_request_first_call_params_witness :
    (MultiTenantRateLimiter.mk [("tenant", TokenBucket.mk 3 1 2 0)]).allow_request
        "tenant" 1 (some 99) (some 50) 0
      = (MultiTenantRateLimiter.mk [("tenant", TokenBucket.mk 3 1 2 0)]).allow_request
        "tenant" 1 none none 0 ∧
    (MultiTenantRateLimiter.mk []).allow_request "fresh" 1 none none 0
      = (((TokenBucket.init 5 1 0).allow_request 1 0).1,
         ⟨setKey [] "fresh" ((TokenBucket.init 5 1 0).allow_request 1 0).2⟩) := by
  constructor
  · exact ((allow_request_first_call_params
      (MultiTenantRateLimiter.mk [("tenant", TokenBucket.mk 3 1 2 0)])
      "tenant" 1 (some 99) none (some 50) none 0).1 (TokenBucket.mk 3 1 2 0) rfl).1
  · exact (allow_request_first_call_params (MultiTenantRateLimiter.mk [])
      "fresh" 1 none none none none 0).2 rfl

/-! ### C1 — single-flight: invariant preservation, per transition -/

theorem setThread_self {n : ℕ} (f : Fin n → Caller) (t : Fin n) (ph : Phase) :
    setThread f t ph t = ⟨(f t).key, ph⟩ := by
  simp [setThread]

theorem setThread_other {n : ℕ} (f : Fin n → Caller) (t : Fin n) (ph : Phase)
    (u : Fin n) (h : u ≠ t) : setThread f t ph u = f u := by
  simp [setThread, h]

theorem setThread_key {n : ℕ} (f : Fin n → Caller) (t : Fin n) (ph : Phase)
    (u : Fin n) : (setThread f t ph u).key = (f u).key := by
  by_cases h : u = t
  · subst h
    simp [setThread]
  · simp [setThread, h]

theorem setAt_self {α : Type} (f : ℕ → α) (k : ℕ) (a : α) : setAt f k a k = a := by
  simp [setAt]

theorem setAt_other {α : Type} (f : ℕ → α) (k : ℕ) (a : α) (k2 : ℕ) (h : k2 ≠ k) :
    setAt f k a k2 = f k2 := by
  simp [setAt, h]

theorem step_inv_tick {n : ℕ} {ttl : ℤ} {k : ℕ} {c0 : ℤ} {s s2 : SysState n}
    (hinv : Inv ttl k c0 s) (hstep : step ttl s .tick = some s2) :
    Inv ttl k c0 s2 := by
  obtain rfl : { s with clock := s.clock + 1 } = s2 := Option.some.inj hstep
  exact { hinv with
    clock0 := le_trans hinv.clock0 (by dsimp only; linarith)
    entry_le_clock := fun t t0 h =>
      le_trans (hinv.entry_le_clock t t0 h) (by dsimp only; linarith) }

theorem step_inv_cleanup {n : ℕ} {ttl : ℤ} {k : ℕ} {c0 : ℤ} {s s2 : SysState n}
    (hinv : Inv ttl k c0 s) (hdur : s.clock ≤ c0 + ttl)
    (hstep : step ttl s .cleanup = some s2) :
    Inv ttl k c0 s2 := by
  obtain rfl := Option.some.inj hstep
  have hsk : (match s.store k with
      | some e => if s.clock - e.timestamp > ttl then none else some e
      | none => none) = s.store k := by
    cases hs : s.store k with
    | none => rfl
    | some e =>
        have hc0 : c0 ≤ e.timestamp := (hinv.store_fresh e hs).2.2.2.1
        have : ¬ s.clock - e.timestamp > ttl := by linarith
        simp [this]
  refine { hinv with
    store_fresh := ?_, store_virgin := ?_, storing_one := ?_, finish_one := ?_ }
  · intro e he
    dsimp only at he
    rw [hsk] at he
    exact hinv.store_fresh e he
  · intro he
    dsimp only at he
    rw [hsk] at he
    exact hinv.store_virgin he
  · intro t r h
    dsimp only at h ⊢
    rw [hsk]
    exact hinv.storing_one t r h
  · intro t r h
    dsimp only at h ⊢
    rw [hsk]
    exact hinv.finish_one t r h

theorem step_inv_fastPath {n : ℕ} {ttl : ℤ} {k : ℕ} {c0 : ℤ} {s s2 : SysState n}
    {t : Fin n} (hinv : Inv ttl k c0 s) (hpre : s.store k ≠ none → Started k s)
    (hstep : step ttl s (.fastPath t) = some s2) :
    Inv ttl k c0 s2 := by
  simp only [step] at hstep
  cases hp : (s.threads t).phase with
  | coordinating t0 => rw [hp] at hstep; exact Option.noConfusion hstep
  | acquiring t0 => rw [hp] at hstep; exact Option.noConfusion hstep
  | checking t0 => rw [hp] at hstep; exact Option.noConfusion hstep
  | invoking t0 => rw [hp] at hstep; exact Option.noConfusion hstep
  | storing r => rw [hp] at hstep; exact Option.noConfusion hstep
  | releasing r => rw [hp] at hstep; exact Option.noConfusion hstep
  | done r => rw [hp] at hstep; exact Option.noConfusion hstep
  | ready =>
      rw [hp, hinv.keys t] at hstep
      cases hs : s.store k with
      | some e =>
          exact absurd hp (hpre (by rw [hs]; exact fun h => Option.noConfusion h)
            t (hinv.keys t))
      | none =>
          rw [hs] at hstep
          obtain rfl := Option.some.inj hstep
          refine { keys := ?_, clock0 := hinv.clock0, lockIff := ?_,
                   entry_le_clock := ?_, store_fresh := ?_, store_virgin := ?_,
                   storing_one := ?_, finish_one := ?_ }
          · intro u
            dsimp only
            rw [setThread_key]
            exact hinv.keys u
          · intro u
            dsimp only
            by_cases hu : u = t
            · subst hu
              rw [setThread_self]
              constructor
              · intro h
                exact h.elim
              · intro h
                have h2 := (hinv.lockIff u).mpr h
                rw [hp] at h2
                exact h2.elim
            · rw [setThread_other _ _ _ _ hu]
              exact hinv.lockIff u
          · intro u t0 h
            dsimp only at h
            by_cases hu : u = t
            · subst hu
              rw [setThread_self] at h
              obtain rfl := Option.some.inj h
              exact le_refl _
            · rw [setThread_other _ _ _ _ hu] at h
              exact hinv.entry_le_clock u t0 h
          · intro e he
            dsimp only at he
            rw [hs] at he
            exact Option.noConfusion he
          · intro _
            constructor
            · intro u r
              dsimp only
              by_cases hu : u = t
              · subst hu
                rw [setThread_self]
                exact ⟨fun h => Phase.noConfusion h, fun h => Phase.noConfusion h⟩
              · rw [setThread_other _ _ _ _ hu]
                exact (hinv.store_virgin hs).1 u r
            · intro hno
              refine (hinv.store_virgin hs).2 ?_
              intro u r hst
              by_cases hu : u = t
              · subst hu
                rw [hp] at hst
                exact Phase.noConfusion hst
              · exact hno u r (by
                  dsimp only
                  rw [setThread_other _ _ _ _ hu]
                  exact hst)
          · intro u r h
            dsimp only at h
            by_cases hu : u = t
            · subst hu
              rw [setThread_self] at h
              exact Phase.noConfusion h
            · rw [setThread_other _ _ _ _ hu] at h
              exact hinv.storing_one u r h
          · intro u r h
            dsimp only at h
            by_cases hu : u = t
            · subst hu
              rw [setThread_self] at h
              rcases h with h | h
              · exact Phase.noConfusion h
              · exact Phase.noConfusion h
            · rw [setThread_other _ _ _ _ hu] at h
              rcases h with h | h
              · exact absurd h ((hinv.store_virgin hs).1 u r).1
              · exact absurd h ((hinv.store_virgin hs).1 u r).2

theorem step_inv_coordinate {n : ℕ} {ttl : ℤ} {k : ℕ} {c0 : ℤ} {s s2 : SysState n}
    {t : Fin n} (hinv : Inv ttl k c0 s)
    (hstep : step ttl s (.coordinate t) = some s2) :
    Inv ttl k c0 s2 := by
  simp only [step] at hstep
  cases hp : (s.threads t).phase with
  | ready => rw [hp] at hstep; exact Option.noConfusion hstep
  | acquiring t0 => rw [hp] at hstep; exact Option.noConfusion hstep
  | checking t0 => rw [hp] at hstep; exact Option.noConfusion hstep
  | invoking t0 => rw [hp] at hstep; exact Option.noConfusion hstep
  | storing r => rw [hp] at hstep; exact Option.noConfusion hstep
  | releasing r => rw [hp] at hstep; exact Option.noConfusion hstep
  | done r => rw [hp] at hstep; exact Option.noConfusion hstep
  | coordinating t0 =>
      rw [hp, hinv.keys t] at hstep
      obtain rfl := Option.some.inj hstep
      have hent : t0 ≤ s.clock :=
        hinv.entry_le_clock t t0 (by rw [hp]; rfl)
      refine { keys := ?_, clock0 := hinv.clock0, lockIff := ?_,
               entry_le_clock := ?_, store_fresh := ?_, store_virgin := ?_,
               storing_one := ?_, finish_one := ?_ }
      · intro u
        dsimp only
        rw [setThread_key]
        exact hinv.keys u
      · intro u
        dsimp only
        by_cases hu : u = t
        · subst hu
          rw [setThread_self]
          constructor
          · intro h
            exact h.elim
          · intro h
            have h2 := (hinv.lockIff u).mpr h
            rw [hp] at h2
            exact h2.elim
        · rw [setThread_other _ _ _ _ hu]
          exact hinv.lockIff u
      · intro u t0a h
        dsimp only at h
        by_cases hu : u = t
        · subst hu
          rw [setThread_self] at h
          obtain rfl := Option.some.inj h
          exact hent
        · rw [setThread_other _ _ _ _ hu] at h
          exact hinv.entry_le_clock u t0a h
      · intro e he
        dsimp only at he
        obtain ⟨h1, h2, h3, h4, h5, h6⟩ := hinv.store_fresh e he
        refine ⟨h1, h2, h3, h4, ?_, ?_⟩
        · intro u
          dsimp only
          by_cases hu : u = t
          · subst hu
            rw [setThread_self]
            exact ⟨fun _ h => Phase.noConfusion h, fun _ h => Phase.noConfusion h⟩
          · rw [setThread_other _ _ _ _ hu]
            exact h5 u
        · intro u t0a h
          dsimp only at h
          by_cases hu : u = t
          · subst hu
            rw [setThread_self] at h
            obtain rfl := Option.some.inj h
            exact h6 u _ (by rw [hp]; rfl)
          · rw [setThread_other _ _ _ _ hu] at h
            exact h6 u t0a h
      · intro hs
        dsimp only at hs
        constructor
        · intro u r
          dsimp only
          by_cases hu : u = t
          · subst hu
            rw [setThread_self]
            exact ⟨fun h => Phase.noConfusion h, fun h => Phase.noConfusion h⟩
          · rw [setThread_other _ _ _ _ hu]
            exact (hinv.store_virgin hs).1 u r
        · intro hno
          refine (hinv.store_virgin hs).2 ?_
          intro u r hst
          by_cases hu : u = t
          · subst hu
            rw [hp] at hst
            exact Phase.noConfusion hst
          · exact hno u r (by
              dsimp only
              rw [setThread_other _ _ _ _ hu]
              exact hst)
      · intro u r h
        dsimp only at h
        by_cases hu : u = t
        · subst hu
          rw [setThread_self] at h
          exact Phase.noConfusion h
        · rw [setThread_other _ _ _ _ hu] at h
          exact hinv.storing_one u r h
      · intro u r h
        dsimp only at h
        by_cases hu : u = t
        · subst hu
          rw [setThread_self] at h
          rcases h with h | h
          · exact Phase.noConfusion h
          · exact Phase.noConfusion h
        · rw [setThread_other _ _ _ _ hu] at h
          exact hinv.finish_one u r h

theorem step_inv_acquire {n : ℕ} {ttl : ℤ} {k : ℕ} {c0 : ℤ} {s s2 : SysState n}
    {t : Fin n} (hinv : Inv ttl k c0 s)
    (hstep : step ttl s (.acquire t) = some s2) :
    Inv ttl k c0 s2 := by
  simp only [step] at hstep
  cases hp : (s.threads t).phase with
  | ready => rw [hp] at hstep; exact Option.noConfusion hstep
  | coordinating t0 => rw [hp] at hstep; exact Option.noConfusion hstep
  | checking t0 => rw [hp] at hstep; exact Option.noConfusion hstep
  | invoking t0 => rw [hp] at hstep; exact Option.noConfusion hstep
  | storing r => rw [hp] at hstep; exact Option.noConfusion hstep
  | releasing r => rw [hp] at hstep; exact Option.noConfusion hstep
  | done r => rw [hp] at hstep; exact Option.noConfusion hstep
  | acquiring t0 =>
      rw [hp, hinv.keys t] at hstep
      cases hl : s.lockHolder k with
      | some u2 => rw [hl] at hstep; exact Option.noConfusion hstep
      | none =>
          rw [hl] at hstep
          obtain rfl := Option.some.inj hstep
          have hent : t0 ≤ s.clock :=
            hinv.entry_le_clock t t0 (by rw [hp]; rfl)
          refine { keys := ?_, clock0 := hinv.clock0, lockIff := ?_,
                   entry_le_clock := ?_, store_fresh := ?_, store_virgin := ?_,
                   storing_one := ?_, finish_one := ?_ }
          · intro u
            dsimp only
            rw [setThread_key]
            exact hinv.keys u
          · intro u
            dsimp only
            rw [setAt_self]
            by_cases hu : u = t
            · subst hu
              rw [setThread_self]
              exact ⟨fun _ => rfl, fun _ => trivial⟩
            · rw [setThread_other _ _ _ _ hu]
              constructor
              · intro h
                have h2 := (hinv.lockIff u).mp h
                rw [hl] at h2
                exact Option.noConfusion h2
              · intro h
                exact absurd (Option.some.inj h).symm hu
          · intro u t0a h
            dsimp only at h
            by_cases hu : u = t
            · subst hu
              rw [setThread_self] at h
              obtain rfl := Option.some.inj h
              exact hent
            · rw [setThread_other _ _ _ _ hu] at h
              exact hinv.entry_le_clock u t0a h
          · intro e he
            dsimp only at he
            obtain ⟨h1, h2, h3, h4, h5, h6⟩ := hinv.store_fresh e he
            refine ⟨h1, h2, h3, h4, ?_, ?_⟩
            · intro u
              dsimp only
              by_cases hu : u = t
              · subst hu
                rw [setThread_self]
                exact ⟨fun _ h => Phase.noConfusion h, fun _ h => Phase.noConfusion h⟩
              · rw [setThread_other _ _ _ _ hu]
                exact h5 u
            · intro u t0a h
              dsimp only at h
              by_cases hu : u = t
              · subst hu
                rw [setThread_self] at h
                obtain rfl := Option.some.inj h
                exact h6 u _ (by rw [hp]; rfl)
              · rw [setThread_other _ _ _ _ hu] at h
                exact h6 u t0a h
          · intro hs
            dsimp only at hs
            constructor
            · intro u r
              dsimp only
              by_cases hu : u = t
              · subst hu
                rw [setThread_self]
                exact ⟨fun h => Phase.noConfusion h, fun h => Phase.noConfusion h⟩
              · rw [setThread_other _ _ _ _ hu]
                exact (hinv.store_virgin hs).1 u r
            · intro hno
              refine (hinv.store_virgin hs).2 ?_
              intro u r hst
              by_cases hu : u = t
              · subst hu
                rw [hp] at hst
                exact Phase.noConfusion hst
              · exact hno u r (by
                  dsimp only
                  rw [setThread_other _ _ _ _ hu]
                  exact hst)
          · intro u r h
            dsimp only at h
            by_cases hu : u = t
            · subst hu
              rw [setThread_self] at h
              exact Phase.noConfusion h
            · rw [setThread_other _ _ _ _ hu] at h
              exact hinv.storing_one u r h
          · intro u r h
            dsimp only at h
            by_cases hu : u = t
            · subst hu
              rw [setThread_self] at h
              rcases h with h | h
              · exact Phase.noConfusion h
              · exact Phase.noConfusion h
            · rw [setThread_other _ _ _ _ hu] at h
              exact hinv.finish_one u r h

theorem step_inv_doubleCheck {n : ℕ} {ttl : ℤ} {k : ℕ} {c0 : ℤ} {s s2 : SysState n}
    {t : Fin n} (httl : 0 ≤ ttl) (hinv : Inv ttl k c0 s)
    (hstep : step ttl s (.doubleCheck t) = some s2) :
    Inv ttl k c0 s2 := by
  simp only [step] at hstep
  cases hp : (s.threads t).phase with
  | ready => rw [hp] at hstep; exact Option.noConfusion hstep
  | coordinating t0 => rw [hp] at hstep; exact Option.noConfusion hstep
  | acquiring t0 => rw [hp] at hstep; exact Option.noConfusion hstep
  | invoking t0 => rw [hp] at hstep; exact Option.noConfusion hstep
  | storing r => rw [hp] at hstep; exact Option.noConfusion hstep
  | releasing r => rw [hp] at hstep; exact Option.noConfusion hstep
  | done r => rw [hp] at hstep; exact Option.noConfusion hstep
  | checking t0 =>
      rw [hp, hinv.keys t] at hstep
      have hlock : s.lockHolder k = some t :=
        (hinv.lockIff t).mp (by rw [hp]; trivial)
      cases hs : s.store k with
      | some e =>
          rw [hs] at hstep
          dsimp only at hstep
          obtain ⟨h1, h2, h3, h4, h5, h6⟩ := hinv.store_fresh e hs
          have hf : fresh_entryC e t0 ttl = true := by
            have ht0 : t0 ≤ e.timestamp := h6 t t0 (by rw [hp]; rfl)
            simp only [fresh_entryC, h1, Bool.true_and, decide_eq_true_eq]
            linarith
          rw [if_pos hf] at hstep
          obtain rfl := Option.some.inj hstep
          refine { keys := ?_, clock0 := hinv.clock0, lockIff := ?_,
                   entry_le_clock := ?_, store_fresh := ?_, store_virgin := ?_,
                   storing_one := ?_, finish_one := ?_ }
          · intro u
            dsimp only
            rw [setThread_key]
            exact hinv.keys u
          · intro u
            dsimp only
            by_cases hu : u = t
            · subst hu
              rw [setThread_self]
              exact ⟨fun _ => hlock, fun _ => trivial⟩
            · rw [setThread_other _ _ _ _ hu]
              exact hinv.lockIff u
          · intro u t0a h
            dsimp only at h
            by_cases hu : u = t
            · subst hu
              rw [setThread_self] at h
              exact Option.noConfusion h
            · rw [setThread_other _ _ _ _ hu] at h
              exact hinv.entry_le_clock u t0a h
          · intro e2 he2
            dsimp only at he2
            rw [hs] at he2
            obtain rfl := Option.some.inj he2
            refine ⟨h1, h2, h3, h4, ?_, ?_⟩
            · intro u
              dsimp only
              by_cases hu : u = t
              · subst hu
                rw [setThread_self]
                exact ⟨fun _ h => Phase.noConfusion h, fun _ h => Phase.noConfusion h⟩
              · rw [setThread_other _ _ _ _ hu]
                exact h5 u
            · intro u t0a h
              dsimp only at h
              by_cases hu : u = t
              · subst hu
                rw [setThread_self] at h
                exact Option.noConfusion h
              · rw [setThread_other _ _ _ _ hu] at h
                exact h6 u t0a h
          · intro hv
            dsimp only at hv
            rw [hs] at hv
            exact Option.noConfusion hv
          · intro u r h
            dsimp only at h
            by_cases hu : u = t
            · subst hu
              rw [setThread_self] at h
              exact Phase.noConfusion h
            · rw [setThread_other _ _ _ _ hu] at h
              exact absurd h ((h5 u).2 r)
          · intro u r h
            dsimp only at h
            by_cases hu : u = t
            · subst hu
              rw [setThread_self] at h
              rcases h with h | h
              · have hr : e.result = r := by injection h
                refine ⟨by rw [← hr]; exact h2, ?_⟩
                dsimp only
                rw [hs]
                exact fun hh => Option.noConfusion hh
              · exact Phase.noConfusion h
            · rw [setThread_other _ _ _ _ hu] at h
              have h7 := hinv.finish_one u r h
              exact ⟨h7.1, h7.2⟩
      | none =>
          rw [hs] at hstep
          obtain rfl := Option.some.inj hstep
          refine { keys := ?_, clock0 := hinv.clock0, lockIff := ?_,
                   entry_le_clock := ?_, store_fresh := ?_, store_virgin := ?_,
                   storing_one := ?_, finish_one := ?_ }
          · intro u
            dsimp only
            rw [setThread_key]
            exact hinv.keys u
          · intro u
            dsimp only
            by_cases hu : u = t
            · subst hu
              rw [setThread_self]
              exact ⟨fun _ => hlock, fun _ => trivial⟩
            · rw [setThread_other _ _ _ _ hu]
              exact hinv.lockIff u
          · intro u t0a h
            dsimp only at h
            by_cases hu : u = t
            · subst hu
              rw [setThread_self] at h
              obtain rfl := Option.some.inj h
              exact hinv.entry_le_clock u _ (by rw [hp]; rfl)
            · rw [setThread_other _ _ _ _ hu] at h
              exact hinv.entry_le_clock u t0a h
          · intro e2 he2
            dsimp only at he2
            rw [hs] at he2
            exact Option.noConfusion he2
          · intro _
            constructor
            · intro u r
              dsimp only
              by_cases hu : u = t
              · subst hu
                rw [setThread_self]
                exact ⟨fun h => Phase.noConfusion h, fun h => Phase.noConfusion h⟩
              · rw [setThread_other _ _ _ _ hu]
                exact (hinv.store_virgin hs).1 u r
            · intro hno
              refine (hinv.store_virgin hs).2 ?_
              intro u r hst
              by_cases hu : u = t
              · subst hu
                rw [hp] at hst
                exact Phase.noConfusion hst
              · exact hno u r (by
                  dsimp only
                  rw [setThread_other _ _ _ _ hu]
                  exact hst)
          · intro u r h
            dsimp only at h
            by_cases hu : u = t
            · subst hu
              rw [setThread_self] at h
              exact Phase.noConfusion h
            · rw [setThread_other _ _ _ _ hu] at h
              exact hinv.storing_one u r h
          · intro u r h
            dsimp only at h
            by_cases hu : u = t
            · subst hu
              rw [setThread_self] at h
              rcases h with h | h
              · exact Phase.noConfusion h
              · exact Phase.noConfusion h
            · rw [setThread_other _ _ _ _ hu] at h
              rcases h with h | h
              · exact absurd h ((hinv.store_virgin hs).1 u r).1
              · exact absurd h ((hinv.store_virgin hs).1 u r).2

theorem step_inv_invoke {n : ℕ} {ttl : ℤ} {k : ℕ} {c0 : ℤ} {s s2 : SysState n}
    {t : Fin n} (hinv : Inv ttl k c0 s)
    (hstep : step ttl s (.invoke t) = some s2) :
    Inv ttl k c0 s2 := by
  simp only [step] at hstep
  cases hp : (s.threads t).phase with
  | ready => rw [hp] at hstep; exact Option.noConfusion hstep
  | coordinating t0 => rw [hp] at hstep; exact Option.noConfusion hstep
  | acquiring t0 => rw [hp] at hstep; exact Option.noConfusion hstep
  | checking t0 => rw [hp] at hstep; exact Option.noConfusion hstep
  | storing r => rw [hp] at hstep; exact Option.noConfusion hstep
  | releasing r => rw [hp] at hstep; exact Option.noConfusion hstep
  | done r => rw [hp] at hstep; exact Option.noConfusion hstep
  | invoking t0 =>
      rw [hp, hinv.keys t] at hstep
      obtain rfl := Option.some.inj hstep
      have hs : s.store k = none := by
        cases hs2 : s.store k with
        | none => rfl
        | some e =>
            exact absurd hp (((hinv.store_fresh e hs2).2.2.2.2.1 t).1 t0)
      have hnost : ∀ u r, (s.threads u).phase ≠ .storing r := by
        intro u r hst
        have hu1 : s.lockHolder k = some u :=
          (hinv.lockIff u).mp (by rw [hst]; trivial)
        have ht1 : s.lockHolder k = some t :=
          (hinv.lockIff t).mp (by rw [hp]; trivial)
        rw [hu1] at ht1
        obtain rfl : u = t := Option.some.inj ht1
        rw [hp] at hst
        exact Phase.noConfusion hst
      have hcnt : s.counter k = 0 := (hinv.store_virgin hs).2 hnost
      refine { keys := ?_, clock0 := hinv.clock0, lockIff := ?_,
               entry_le_clock := ?_, store_fresh := ?_, store_virgin := ?_,
               storing_one := ?_, finish_one := ?_ }
      · intro u
        dsimp only
        rw [setThread_key]
        exact hinv.keys u
      · intro u
        dsimp only
        by_cases hu : u = t
        · subst hu
          rw [setThread_self]
          exact ⟨fun _ => (hinv.lockIff u).mp (by rw [hp]; trivial), fun _ => trivial⟩
        · rw [setThread_other _ _ _ _ hu]
          exact hinv.lockIff u
      · intro u t0a h
        dsimp only at h
        by_cases hu : u = t
        · subst hu
          rw [setThread_self] at h
          exact Option.noConfusion h
        · rw [setThread_other _ _ _ _ hu] at h
          exact hinv.entry_le_clock u t0a h
      · intro e2 he2
        dsimp only at he2
        rw [hs] at he2
        exact Option.noConfusion he2
      · intro _
        constructor
        · intro u r
          dsimp only
          by_cases hu : u = t
          · subst hu
            rw [setThread_self]
            exact ⟨fun h => Phase.noConfusion h, fun h => Phase.noConfusion h⟩
          · rw [setThread_other _ _ _ _ hu]
            exact (hinv.store_virgin hs).1 u r
        · intro hno
          exact ((hno t _) (by
            dsimp only
            rw [setThread_self])).elim
      · intro u r h
        dsimp only at h
        by_cases hu : u = t
        · subst hu
          rw [setThread_self] at h
          have hr : ((s.counter k : ℤ) + 1) = r := by injection h
          refine ⟨?_, ?_, ?_⟩
          · rw [← hr, hcnt]
            rfl
          · dsimp only
            rw [setAt_self, hcnt]
          · dsimp only
            exact hs
        · rw [setThread_other _ _ _ _ hu] at h
          exact absurd h (hnost u r)
      · intro u r h
        dsimp only at h
        by_cases hu : u = t
        · subst hu
          rw [setThread_self] at h
          rcases h with h | h
          · exact Phase.noConfusion h
          · exact Phase.noConfusion h
        · rw [setThread_other _ _ _ _ hu] at h
          rcases h with h | h
          · exact absurd h ((hinv.store_virgin hs).1 u r).1
          · exact absurd h ((hinv.store_virgin hs).1 u r).2

theorem step_inv_storeWrite {n : ℕ} {ttl : ℤ} {k : ℕ} {c0 : ℤ} {s s2 : SysState n}
    {t : Fin n} (hinv : Inv ttl k c0 s)
    (hstep : step ttl s (.storeWrite t) = some s2) :
    Inv ttl k c0 s2 := by
  simp only [step] at hstep
  cases hp : (s.threads t).phase with
  | ready => rw [hp] at hstep; exact Option.noConfusion hstep
  | coordinating t0 => rw [hp] at hstep; exact Option.noConfusion hstep
  | acquiring t0 => rw [hp] at hstep; exact Option.noConfusion hstep
  | checking t0 => rw [hp] at hstep; exact Option.noConfusion hstep
  | invoking t0 => rw [hp] at hstep; exact Option.noConfusion hstep
  | releasing r => rw [hp] at hstep; exact Option.noConfusion hstep
  | done r => rw [hp] at hstep; exact Option.noConfusion hstep
  | storing r =>
      rw [hp, hinv.keys t] at hstep
      obtain rfl := Option.some.inj hstep
      obtain ⟨hr1, hc1, hsn⟩ := hinv.storing_one t r hp
      have hlock : s.lockHolder k = some t :=
        (hinv.lockIff t).mp (by rw [hp]; trivial)
      have hnothold : ∀ u, u ≠ t → ¬ holding (s.threads u).phase := by
        intro u hu hh
        have h2 := (hinv.lockIff u).mp hh
        rw [hlock] at h2
        exact hu (Option.some.inj h2).symm
      refine { keys := ?_, clock0 := hinv.clock0, lockIff := ?_,
               entry_le_clock := ?_, store_fresh := ?_, store_virgin := ?_,
               storing_one := ?_, finish_one := ?_ }
      · intro u
        dsimp only
        rw [setThread_key]
        exact hinv.keys u
      · intro u
        dsimp only
        by_cases hu : u = t
        · subst hu
          rw [setThread_self]
          exact ⟨fun _ => hlock, fun _ => trivial⟩
        · rw [setThread_other _ _ _ _ hu]
          exact hinv.lockIff u
      · intro u t0a h
        dsimp only at h
        by_cases hu : u = t
        · subst hu
          rw [setThread_self] at h
          exact Option.noConfusion h
        · rw [setThread_other _ _ _ _ hu] at h
          exact hinv.entry_le_clock u t0a h
      · intro e2 he2
        dsimp only at he2
        rw [setAt_self] at he2
        obtain rfl := Option.some.inj he2
        refine ⟨rfl, hr1, ?_, hinv.clock0, ?_, ?_⟩
        · dsimp only
          exact hc1
        · intro u
          dsimp only
          by_cases hu : u = t
          · subst hu
            rw [setThread_self]
            exact ⟨fun _ h => Phase.noConfusion h, fun _ h => Phase.noConfusion h⟩
          · rw [setThread_other _ _ _ _ hu]
            constructor
            · intro t0a h
              exact hnothold u hu (by rw [h]; trivial)
            · intro r2 h
              exact hnothold u hu (by rw [h]; trivial)
        · intro u t0a h
          dsimp only at h
          by_cases hu : u = t
          · subst hu
            rw [setThread_self] at h
            exact Option.noConfusion h
          · rw [setThread_other _ _ _ _ hu] at h
            exact hinv.entry_le_clock u t0a h
      · intro hv
        dsimp only at hv
        rw [setAt_self] at hv
        exact Option.noConfusion hv
      · intro u r2 h
        dsimp only at h
        by_cases hu : u = t
        · subst hu
          rw [setThread_self] at h
          exact Phase.noConfusion h
        · rw [setThread_other _ _ _ _ hu] at h
          exact absurd (by rw [h]; trivial : holding (s.threads u).phase) (hnothold u hu)
      · intro u r2 h
        dsimp only at h
        by_cases hu : u = t
        · subst hu
          rw [setThread_self] at h
          rcases h with h | h
          · have hr : r = r2 := by injection h
            refine ⟨by rw [← hr]; exact hr1, ?_⟩
            dsimp only
            rw [setAt_self]
            exact fun hh => Option.noConfusion hh
          · exact Phase.noConfusion h
        · rw [setThread_other _ _ _ _ hu] at h
          rcases h with h | h
          · exact absurd h ((hinv.store_virgin hsn).1 u r2).1
          · exact absurd h ((hinv.store_virgin hsn).1 u r2).2

theorem step_inv_release {n : ℕ} {ttl : ℤ} {k : ℕ} {c0 : ℤ} {s s2 : SysState n}
    {t : Fin n} (hinv : Inv ttl k c0 s)
    (hstep : step ttl s (.release t) = some s2) :
    Inv ttl k c0 s2 := by
  simp only [step] at hstep
  cases hp : (s.threads t).phase with
  | ready => rw [hp] at hstep; exact Option.noConfusion hstep
  | coordinating t0 => rw [hp] at hstep; exact Option.noConfusion hstep
  | acquiring t0 => rw [hp] at hstep; exact Option.noConfusion hstep
  | checking t0 => rw [hp] at hstep; exact Option.noConfusion hstep
  | invoking t0 => rw [hp] at hstep; exact Option.noConfusion hstep
  | storing r => rw [hp] at hstep; exact Option.noConfusion hstep
  | done r => rw [hp] at hstep; exact Option.noConfusion hstep
  | releasing r =>
      rw [hp, hinv.keys t] at hstep
      obtain rfl := Option.some.inj hstep
      obtain ⟨hr1, hsn⟩ := hinv.finish_one t r (Or.inl hp)
      have hlock : s.lockHolder k = some t :=
        (hinv.lockIff t).mp (by rw [hp]; trivial)
      have hnothold : ∀ u, u ≠ t → ¬ holding (s.threads u).phase := by
        intro u hu hh
        have h2 := (hinv.lockIff u).mp hh
        rw [hlock] at h2
        exact hu (Option.some.inj h2).symm
      obtain ⟨e, he⟩ := Option.ne_none_iff_exists'.mp hsn
      refine { keys := ?_, clock0 := hinv.clock0, lockIff := ?_,
               entry_le_clock := ?_, store_fresh := ?_, store_virgin := ?_,
               storing_one := ?_, finish_one := ?_ }
      · intro u
        dsimp only
        rw [setThread_key]
        exact hinv.keys u
      · intro u
        dsimp only
        rw [setAt_self]
        by_cases hu : u = t
        · subst hu
          rw [setThread_self]
          exact ⟨fun h => h.elim, fun h => Option.noConfusion h⟩
        · rw [setThread_other _ _ _ _ hu]
          exact ⟨fun h => absurd h (hnothold u hu), fun h => Option.noConfusion h⟩
      · intro u t0a h
        dsimp only at h
        by_cases hu : u = t
        · subst hu
          rw [setThread_self] at h
          exact Option.noConfusion h
        · rw [setThread_other _ _ _ _ hu] at h
          exact hinv.entry_le_clock u t0a h
      · intro e2 he2
        dsimp only at he2
        obtain ⟨h1, h2, h3, h4, h5, h6⟩ := hinv.store_fresh e2 he2
        refine ⟨h1, h2, h3, h4, ?_, ?_⟩
        · intro u
          dsimp only
          by_cases hu : u = t
          · subst hu
            rw [setThread_self]
            exact ⟨fun _ h => Phase.noConfusion h, fun _ h => Phase.noConfusion h⟩
          · rw [setThread_other _ _ _ _ hu]
            exact h5 u
        · intro u t0a h
          dsimp only at h
          by_cases hu : u = t
          · subst hu
            rw [setThread_self] at h
            exact Option.noConfusion h
          · rw [setThread_other _ _ _ _ hu] at h
            exact h6 u t0a h
      · intro hv
        dsimp only at hv
        exact (hsn hv).elim
      · intro u r2 h
        dsimp only at h
        by_cases hu : u = t
        · subst hu
          rw [setThread_self] at h
          exact Phase.noConfusion h
        · rw [setThread_other _ _ _ _ hu] at h
          exact absurd h (((hinv.store_fresh e he).2.2.2.2.1 u).2 r2)
      · intro u r2 h
        dsimp only at h
        by_cases hu : u = t
        · subst hu
          rw [setThread_self] at h
          rcases h with h | h
          · exact Phase.noConfusion h
          · have hr : r = r2 := by injection h
            exact ⟨by rw [← hr]; exact hr1, hsn⟩
        · rw [setThread_other _ _ _ _ hu] at h
          exact hinv.finish_one u r2 h

theorem step_inv {n : ℕ} {ttl : ℤ} {k : ℕ} {c0 : ℤ} {s s2 : SysState n}
    {l : Label n} (httl : 0 ≤ ttl) (hinv : Inv ttl k c0 s)
    (hpre : GoodState ttl k c0 s) (hstep : step ttl s l = some s2) :
    Inv ttl k c0 s2 := by
  cases l with
  | tick => exact step_inv_tick hinv hstep
  | cleanup => exact step_inv_cleanup hinv hpre.2 hstep
  | fastPath t => exact step_inv_fastPath hinv hpre.1 hstep
  | coordinate t => exact step_inv_coordinate hinv hstep
  | acquire t => exact step_inv_acquire hinv hstep
  | doubleCheck t => exact step_inv_doubleCheck httl hinv hstep
  | invoke t => exact step_inv_invoke hinv hstep
  | storeWrite t => exact step_inv_storeWrite hinv hstep
  | release t => exact step_inv_release hinv hstep

theorem init_inv {n : ℕ} (ttl : ℤ) {k : ℕ} {c0 : ℤ} {s : SysState n}
    (hinit : InitFor k c0 s) : Inv ttl k c0 s := by
  obtain ⟨hc, hth, hst, hlk, hcnt⟩ := hinit
  refine { keys := fun t => (hth t).1, clock0 := le_of_eq hc.symm,
           lockIff := ?_, entry_le_clock := ?_, store_fresh := ?_,
           store_virgin := ?_, storing_one := ?_, finish_one := ?_ }
  · intro t
    rw [(hth t).2, hlk]
    exact ⟨fun h => h.elim, fun h => Option.noConfusion h⟩
  · intro t t0 h
    rw [(hth t).2] at h
    exact Option.noConfusion h
  · intro e he
    rw [hst] at he
    exact Option.noConfusion he
  · intro _
    refine ⟨fun t r => ?_, fun _ => hcnt⟩
    rw [(hth t).2]
    exact ⟨fun h => Phase.noConfusion h, fun h => Phase.noConfusion h⟩
  · intro t r h
    rw [(hth t).2] at h
    exact Phase.noConfusion h
  · intro t r h
    rw [(hth t).2] at h
    rcases h with h | h
    · exact Phase.noConfusion h
    · exact Phase.noConfusion h

theorem run_mem_statesAlong {n : ℕ} (ttl : ℤ) :
    ∀ (ls : List (Label n)) (s sf : SysState n), run ttl s ls = some sf →
    sf ∈ statesAlong ttl s ls := by
  intro ls
  induction ls with
  | nil =>
      intro s sf h
      obtain rfl := Option.some.inj h
      rw [statesAlong]
      exact List.mem_singleton_self _
  | cons l ls ih =>
      intro s sf h
      rw [run] at h
      cases hstep : step ttl s l with
      | none =>
          rw [hstep] at h
          exact Option.noConfusion h
      | some s1 =>
          rw [hstep] at h
          dsimp only at h
          rw [statesAlong, hstep]
          exact List.mem_cons_of_mem _ (ih s1 sf h)

theorem run_inv {n : ℕ} (ttl : ℤ) (k : ℕ) (c0 : ℤ) (httl : 0 ≤ ttl) :
    ∀ (ls : List (Label n)) (s : SysState n), Inv ttl k c0 s →
    (∀ s2 ∈ statesAlong ttl s ls, GoodState ttl k c0 s2) →
    ∀ s2 ∈ statesAlong ttl s ls, Inv ttl k c0 s2 := by
  intro ls
  induction ls with
  | nil =>
      intro s hinv _ s2 hmem
      rw [statesAlong] at hmem
      obtain rfl := List.mem_singleton.mp hmem
      exact hinv
  | cons l ls ih =>
      intro s hinv hgood s2 hmem
      rw [statesAlong] at hmem hgood
      cases hstep : step ttl s l with
      | none =>
          rw [hstep] at hmem
          rcases List.mem_cons.mp hmem with rfl | hmem2
          · exact hinv
          · exact absurd hmem2 (List.not_mem_nil s2)
      | some s1 =>
          rw [hstep] at hmem hgood
          rcases List.mem_cons.mp hmem with rfl | hmem2
          · exact hinv
          · have hg : GoodState ttl k c0 s := hgood s (List.mem_cons_self _ _)
            have hinv1 : Inv ttl k c0 s1 := step_inv httl hinv hg hstep
            exact ih s1 hinv1 (fun s3 h3 => hgood s3 (List.mem_cons_of_mem _ h3)) s2 hmem2

/-- C1: in the single-flight scenario (a clean key, `N ≥ 1` callers that all
enter `process` before the first write lands, an episode within one TTL
window, an action that increments the shared per-key counter and succeeds),
at most one thread is inside the action at any visited state, and when every
caller has returned, the action has run exactly once (counter = 1) and all
callers returned that one equal result. -/
theorem process_single_flight {n : ℕ} (ttl c0 : ℤ) (k : ℕ)
    (s0 sf : SysState n) (ls : List (Label n))
    (hn : 0 < n) (httl : 0 ≤ ttl) (hinit : InitFor k c0 s0)
    (hrun : run ttl s0 ls = some sf)
    (hgood : ∀ s ∈ statesAlong ttl s0 ls, GoodState ttl k c0 s)
    (hdone : ∀ t, ∃ r, (sf.threads t).phase = .done r) :
    (∀ s ∈ statesAlong ttl s0 ls, ∀ t u t0 t0a,
        (s.threads t).phase = .invoking t0 → (s.threads u).phase = .invoking t0a →
        t = u) ∧
    sf.counter k = 1 ∧
    (∀ t, (sf.threads t).phase = .done 1) := by
  have hInvAll := run_inv ttl k c0 httl ls s0 (init_inv ttl hinit) hgood
  have hInvF : Inv ttl k c0 sf := hInvAll sf (run_mem_statesAlong ttl ls s0 sf hrun)
  have hdone1 : ∀ t, (sf.threads t).phase = .done 1 := by
    intro t
    obtain ⟨r, hr⟩ := hdone t
    have h1 := (hInvF.finish_one t r (Or.inr hr)).1
    rw [h1] at hr
    exact hr
  refine ⟨?_, ?_, hdone1⟩
  · intro s hmem t u t0 t0a ht hu
    have hInv := hInvAll s hmem
    have h1 : s.lockHolder k = some t := (hInv.lockIff t).mp (by rw [ht]; trivial)
    have h2 : s.lockHolder k = some u := (hInv.lockIff u).mp (by rw [hu]; trivial)
    rw [h1] at h2
    exact Option.some.inj h2
  · obtain ⟨r, hr⟩ := hdone ⟨0, hn⟩
    have hst := (hInvF.finish_one ⟨0, hn⟩ r (Or.inr hr)).2
    obtain ⟨e, he⟩ := Option.ne_none_iff_exists'.mp hst
    exact (hInvF.store_fresh e he).2.2.1

theorem process_single_flight_witness :
    run 0 exS0 exTrace = some exSf ∧ exSf.counter 0 = 1 ∧
    (exSf.threads 0).phase = .done 1 ∧ (exSf.threads 1).phase = .done 1 := by
  have hrun : run (n := 2) 0 exS0 exTrace = some exSf := rfl
  have h := process_single_flight 0 0 0 exS0 exSf exTrace (by norm_num) (le_refl 0)
    (by decide) hrun (by decide)
    (by
      intro t
      fin_cases t
      · exact ⟨1, by decide⟩
      · exact ⟨1, by decide⟩)
  exact ⟨hrun, h.2.1, h.2.2 0, h.2.2 1⟩

/-- C4 (amended): a result served from cache by the fast path is fresh at
the instant of that check (the clock when `current_time` is captured), while
a result served by the post-lock double-check is only guaranteed fresh
relative to the caller's own entry time `t0` — the `current_time` captured
at the top of `process` — not to the clock at the instant the double-check
runs. -/
theorem process_cached_fresh {n : ℕ} (ttl : ℤ) (s s2 : SysState n)
    (t : Fin n) (r : ℤ) :
    (step ttl s (.fastPath t) = some s2 → (s2.threads t).phase = .done r →
      ∃ e, s.store (s.threads t).key = some e ∧ e.success = true ∧
        s.clock - e.timestamp ≤ ttl ∧ e.result = r) ∧
    (∀ t0, step ttl s (.doubleCheck t) = some s2 →
      (s.threads t).phase = .checking t0 → (s2.threads t).phase = .releasing r →
      ∃ e, s.store (s.threads t).key = some e ∧ e.success = true ∧
        t0 - e.timestamp ≤ ttl ∧ e.result = r) := by
  constructor
  · intro hstep hph
    simp only [step] at hstep
    cases hp : (s.threads t).phase with
    | coordinating t0 => rw [hp] at hstep; exact Option.noConfusion hstep
    | acquiring t0 => rw [hp] at hstep; exact Option.noConfusion hstep
    | checking t0 => rw [hp] at hstep; exact Option.noConfusion hstep
    | invoking t0 => rw [hp] at hstep; exact Option.noConfusion hstep
    | storing r2 => rw [hp] at hstep; exact Option.noConfusion hstep
    | releasing r2 => rw [hp] at hstep; exact Option.noConfusion hstep
    | done r2 => rw [hp] at hstep; exact Option.noConfusion hstep
    | ready =>
        rw [hp] at hstep
        cases hs : s.store (s.threads t).key with
        | none =>
            rw [hs] at hstep
            dsimp only at hstep
            obtain rfl := Option.some.inj hstep
            dsimp only at hph
            rw [setThread_self] at hph
            exact Phase.noConfusion hph
        | some e =>
            rw [hs] at hstep
            dsimp only at hstep
            by_cases hf : fresh_entryC e s.clock ttl = true
            · rw [if_pos hf] at hstep
              obtain rfl := Option.some.inj hstep
              dsimp only at hph
              rw [setThread_self] at hph
              have hr : e.result = r := by injection hph
              simp only [fresh_entryC, Bool.and_eq_true, decide_eq_true_eq] at hf
              exact ⟨e, rfl, hf.1, hf.2, hr⟩
            · rw [if_neg hf] at hstep
              obtain rfl := Option.some.inj hstep
              dsimp only at hph
              rw [setThread_self] at hph
              exact Phase.noConfusion hph
  · intro t0 hstep hph hph2
    simp only [step] at hstep
    rw [hph] at hstep
    cases hs : s.store (s.threads t).key with
    | none =>
        rw [hs] at hstep
        dsimp only at hstep
        obtain rfl := Option.some.inj hstep
        dsimp only at hph2
        rw [setThread_self] at hph2
        exact Phase.noConfusion hph2
    | some e =>
        rw [hs] at hstep
        dsimp only at hstep
        by_cases hf : fresh_entryC e t0 ttl = true
        · rw [if_pos hf] at hstep
          obtain rfl := Option.some.inj hstep
          dsimp only at hph2
          rw [setThread_self] at hph2
          have hr : e.result = r := by injection hph2
          simp only [fresh_entryC, Bool.and_eq_true, decide_eq_true_eq] at hf
          exact ⟨e, rfl, hf.1, hf.2, hr⟩
        · rw [if_neg hf] at hstep
          obtain rfl := Option.some.inj hstep
          dsimp only at hph2
          rw [setThread_self] at hph2
          exact Phase.noConfusion hph2

theorem process_cached_fresh_witness :
    (∃ e, exHitS.store (exHitS.threads 0).key = some e ∧ e.success = true ∧
      exHitS.clock - e.timestamp ≤ 10 ∧ e.result = 7) ∧
    (∃ e, exChkS.store (exChkS.threads 0).key = some e ∧ e.success = true ∧
      (2 : ℤ) - e.timestamp ≤ 10 ∧ e.result = 5) := by
  constructor
  · exact (process_cached_fresh 10 exHitS exHitS2 0 7).1 rfl (by decide)
  · exact (process_cached_fresh 10 exChkS exChkS2 0 5).2 2 rfl (by decide) (by decide)

/-- C4 is false as stated: in this reachable run, caller `1` is served from
the cache by the double-check at clock `21`, from an entry written at
timestamp `0` with `ttl = 10` — the entry is not fresh at the instant the
check is performed (`21 − 0 > 10`); the code judged freshness with the
caller's stale entry-time `0` instead. -/
theorem process_double_check_stale_cex :
    run 10 exS0 exC4Trace = some exC4Pre ∧
    (exC4Pre.threads 1).phase = .checking 0 ∧
    exC4Pre.store 0 = some ⟨0, 1, true⟩ ∧
    exC4Pre.clock = 21 ∧
    step 10 exC4Pre (.doubleCheck 1) =
      some { exC4Pre with threads := setThread exC4Pre.threads 1 (.releasing 1) } ∧
    ¬ (exC4Pre.clock - (0 : ℤ) ≤ 10) := by
  refine ⟨rfl, by decide, by decide, by decide, rfl, by decide⟩

end BeyondDSA
